import Mathlib

/-!
Shallow embedding of `group_purity.py` (function `get_metrics`, lines 42-67)
and proofs of the specification claims about it.

The three input arrays are modelled as Lean lists: `groupid`, `haloid` as
`List ℤ` and `galproperty` as `List ℚ`.  The float arithmetic of the source
is modelled exactly over `ℚ`.  Runtime failures Python would raise
(`UnboundLocalError` when the classification falls through and `sortfactor`
is referenced unassigned, `IndexError` on out-of-range fancy indexing) are
modelled by an `Except` result.
-/

namespace GroupPurity

/-- Ranking direction decided by the classification branch (lines 50-55). -/
inductive SortDir
  | magnitude
  | mass
deriving DecidableEq

/-- Runtime failures the reference code can raise while looping over groups. -/
inductive PyError
  | unboundLocalError
  | indexError
deriving DecidableEq

/-- Embedding of the classification branch (lines 50-55): `some .magnitude`
when every property value is strictly between -30 and -12, otherwise
`some .mass` when every value is strictly positive, otherwise `none`
(in the source neither `central_selection` nor `sortfactor` gets assigned
in that case). -/
def classify (galproperty : List ℚ) : Option SortDir :=
  if galproperty.all (fun x => decide (-30 < x)) && galproperty.all (fun x => decide (x < -12)) then
    some SortDir.magnitude
  else if galproperty.all (fun x => decide (0 < x)) then
    some SortDir.mass
  else
    none

/-- The `sortfactor` value assigned next to the classification
(lines 52 and 55). -/
def sortfactor : SortDir → ℚ
  | SortDir.magnitude => 1
  | SortDir.mass => -1

/-- The `central_selection` function assigned at lines 51 and 54:
`np.min` of a nonempty array for a magnitude, `np.max` for a mass
(0 on an empty array; the source never applies it at all). -/
def central_selection : SortDir → List ℚ → ℚ
  | _, [] => 0
  | SortDir.magnitude, x :: xs => xs.foldl min x
  | SortDir.mass, x :: xs => xs.foldl max x

/-- Member indices of group `g`: `np.where(groupid==gg)[0]` (line 58). -/
def groupSel (groupid : List ℤ) (g : ℤ) : List ℕ :=
  (List.range groupid.length).filter (fun i => decide (groupid.getD i 0 = g))

/-- Number of entries of `l` equal to `v` (`np.sum(arr==v)`, and the
per-value counts inside `scipy.stats.mode`). -/
def cnt (l : List ℤ) (v : ℤ) : ℕ :=
  l.countP (fun x => decide (x = v))

/-- Sorted list of the distinct values of `l`: `np.unique` (line 48, and the
candidate list inside `scipy.stats.mode`). -/
def uniqueSorted (l : List ℤ) : List ℤ :=
  l.dedup.insertionSort (fun a b => a ≤ b)

/-- Largest multiplicity attained by a value of `l` (the maximal entry of
the `counts` array inside `scipy.stats.mode`). -/
def maxCount (l : List ℤ) : ℕ :=
  ((uniqueSorted l).map (fun v => cnt l v)).foldr max 0

/-- Embedding of `scipy.stats.mode(l)[0][0]` (line 61): `np.unique` sorts the
distinct values, `np.argmax` over their counts picks the first maximum, so the
result is the smallest value of maximal multiplicity. -/
def modeFn (l : List ℤ) : ℤ :=
  ((uniqueSorted l).filter (fun v => decide (cnt l v = maxCount l))).headD 0

instance : DecidableRel (fun (a b : ℚ × ℤ) => a.1 ≤ b.1) :=
  fun a b => inferInstanceAs (Decidable (a.1 ≤ b.1))

/-- Embedding of `haloid[groupsel][sortidx]` (lines 60-61): the group
members' halo ids reordered by sorting on `sortfactor * galproperty`. -/
def sortedHalos (haloid : List ℤ) (galproperty : List ℚ) (dir : SortDir) (sel : List ℕ) :
    List ℤ :=
  ((sel.map (fun i => (sortfactor dir * galproperty.getD i 0, haloid.getD i 0))).insertionSort
      (fun a b => a.1 ≤ b.1)).map Prod.snd

/-- Representative halo `hh` of group `g` (line 61). -/
def repHalo (groupid haloid : List ℤ) (galproperty : List ℚ) (dir : SortDir) (g : ℤ) : ℤ :=
  modeFn (sortedHalos haloid galproperty dir (groupSel groupid g))

/-- `N_g` (line 59): number of members of group `g`. -/
def N_g (groupid : List ℤ) (g : ℤ) : ℕ :=
  (groupSel groupid g).length

/-- `N_h` (lines 62-63): catalog-wide number of galaxies in halo `h`. -/
def N_h (haloid : List ℤ) (h : ℤ) : ℕ :=
  cnt haloid h

/-- `N_s` (line 64): number of members of group `g` whose true halo is `h`. -/
def N_s (groupid haloid : List ℤ) (g h : ℤ) : ℕ :=
  ((groupSel groupid g).map (fun i => haloid.getD i 0)).countP (fun x => decide (x = h))

/-- Number of catalog indices `i` with both `groupid[i] = g` and
`haloid[i] = h`; the specification's reading of `N_s`. -/
def countBoth (groupid haloid : List ℤ) (g h : ℤ) : ℕ :=
  ((List.range groupid.length).filter
    (fun i => decide (groupid.getD i 0 = g) && decide (haloid.getD i 0 = h))).length

/-- Purity value written for every member of group `g` (line 65). -/
def purityOf (groupid haloid : List ℤ) (galproperty : List ℚ) (dir : SortDir) (g : ℤ) : ℚ :=
  (N_s groupid haloid g (repHalo groupid haloid galproperty dir g) : ℚ) / (N_g groupid g : ℚ)

/-- Completeness value written for every member of group `g` (line 66). -/
def completenessOf (groupid haloid : List ℤ) (galproperty : List ℚ) (dir : SortDir) (g : ℤ) :
    ℚ :=
  (N_s groupid haloid g (repHalo groupid haloid galproperty dir g) : ℚ)
    / (N_h haloid (repHalo groupid haloid galproperty dir g) : ℚ)

/-- Fancy-index assignment `arr[sel] = v` (lines 65-66). -/
def setIndices (l : List ℚ) (sel : List ℕ) (v : ℚ) : List ℚ :=
  sel.foldl (fun acc i => acc.set i v) l

/-- One iteration of the group loop (lines 58-66) once the index accesses are
known to be in range: write the group's purity and completeness at all member
indices. -/
def stepGroup (groupid haloid : List ℤ) (galproperty : List ℚ) (dir : SortDir)
    (acc : List ℚ × List ℚ) (g : ℤ) : List ℚ × List ℚ :=
  (setIndices acc.1 (groupSel groupid g) (purityOf groupid haloid galproperty dir g),
   setIndices acc.2 (groupSel groupid g) (completenessOf groupid haloid galproperty dir g))

/-- The `for gg in unique_groups` loop (lines 57-66), with the runtime errors
Python raises in iteration order: referencing the unassigned `sortfactor`
when classification fell through, then out-of-range fancy indexing of
`galproperty` (line 60), then of `haloid` (line 61). -/
def metricsLoop (groupid haloid : List ℤ) (galproperty : List ℚ) (cls : Option SortDir) :
    List ℤ → List ℚ × List ℚ → Except PyError (List ℚ × List ℚ)
  | [], acc => Except.ok acc
  | g :: gs, acc =>
    match cls with
    | none => Except.error PyError.unboundLocalError
    | some dir =>
      if (groupSel groupid g).all (fun i => decide (i < galproperty.length)) then
        if (groupSel groupid g).all (fun i => decide (i < haloid.length)) then
          metricsLoop groupid haloid galproperty cls gs
            (stepGroup groupid haloid galproperty dir acc g)
        else Except.error PyError.indexError
      else Except.error PyError.indexError

/-- Embedding of `get_metrics` (lines 42-67): output arrays are initialised
with the sentinel -999 and filled group by group. -/
def get_metrics (groupid haloid : List ℤ) (galproperty : List ℚ) :
    Except PyError (List ℚ × List ℚ) :=
  metricsLoop groupid haloid galproperty (classify galproperty) (uniqueSorted groupid)
    (List.replicate groupid.length (-999), List.replicate groupid.length (-999))

/-- Statement, in the specification's words, that `m` is the mode of `l` with
ties broken by the numerically smallest value: `m` occurs in `l`, no value
occurs more often, and `m` is least among the values of maximal frequency. -/
def isModeSpec (l : List ℤ) (m : ℤ) : Prop :=
  m ∈ l ∧ (∀ v ∈ l, cnt l v ≤ cnt l m) ∧ (∀ v ∈ l, cnt l v = cnt l m → m ≤ v)

end GroupPurity

namespace GroupPurity

theorem groupSel_mem {groupid : List ℤ} {g : ℤ} {i : ℕ} :
    i ∈ groupSel groupid g ↔ i < groupid.length ∧ groupid.getD i 0 = g := by
  simp [groupSel, List.mem_filter, List.mem_range]

theorem length_setIndices (sel : List ℕ) (l : List ℚ) (v : ℚ) :
    (setIndices l sel v).length = l.length := by
  induction sel generalizing l with
  | nil => rfl
  | cons j sel ih => simpa [setIndices] using ih (l.set j v)

theorem getD_setIndices (sel : List ℕ) (l : List ℚ) (v : ℚ) (i : ℕ) (d : ℚ) :
    (setIndices l sel v).getD i d =
      if i ∈ sel ∧ i < l.length then v else l.getD i d := by
  induction sel generalizing l with
  | nil => simp [setIndices]
  | cons j sel ih =>
    have hstep : setIndices l (j :: sel) v = setIndices (l.set j v) sel v := rfl
    rw [hstep, ih (l.set j v)]
    by_cases hmem : i ∈ sel ∧ i < l.length
    · simp [hmem, List.length_set, hmem.1, hmem.2]
    · rw [List.length_set]
      rw [if_neg hmem]
      by_cases hij : i = j
      · subst hij
        by_cases hil : i < l.length
        · simp [hil, List.getD_eq_getElem?_getD, List.getElem?_set_self hil]
        · have hset : l.set i v = l := List.set_eq_of_length_le (Nat.le_of_not_lt hil)
          simp [hset, hil]
      · have hne : (l.set j v).getD i d = l.getD i d := by
          simp [List.getD_eq_getElem?_getD, List.getElem?_set_ne (Ne.symm hij)]
        rw [hne]
        by_cases hil : i < l.length
        · have : ¬ (i ∈ j :: sel ∧ i < l.length) := by
            rintro ⟨hm, -⟩
            rcases List.mem_cons.mp hm with h1 | h1
            · exact hij h1
            · exact hmem ⟨h1, hil⟩
          rw [if_neg this]
        · have : ¬ (i ∈ j :: sel ∧ i < l.length) := fun h => hil h.2
          rw [if_neg this]

theorem countP_range_getD (l : List ℤ) (p : ℤ → Bool) :
    (List.range l.length).countP (fun i => p (l.getD i 0)) = l.countP p := by
  induction l with
  | nil => rfl
  | cons a l ih =>
    rw [List.length_cons, List.range_succ_eq_map, List.countP_cons, List.countP_map]
    have h0 : (a :: l).getD 0 0 = a := rfl
    have hsh : ((fun i => p ((a :: l).getD i 0)) ∘ Nat.succ) = fun i => p (l.getD i 0) := by
      funext i
      simp [List.getD_eq_getElem?_getD]
    rw [h0, hsh, ih, List.countP_cons]

end GroupPurity

namespace GroupPurity

theorem uniqueSorted_perm {l1 l2 : List ℤ} (h : l1.Perm l2) :
    uniqueSorted l1 = uniqueSorted l2 := by
  apply List.eq_of_perm_of_sorted (r := fun a b : ℤ => a ≤ b)
  · exact ((List.perm_insertionSort _ _).trans h.dedup).trans
      (List.perm_insertionSort _ _).symm
  · exact List.sorted_insertionSort _ _
  · exact List.sorted_insertionSort _ _

theorem cnt_perm {l1 l2 : List ℤ} (h : l1.Perm l2) (v : ℤ) : cnt l1 v = cnt l2 v :=
  h.countP_eq _

theorem maxCount_perm {l1 l2 : List ℤ} (h : l1.Perm l2) : maxCount l1 = maxCount l2 := by
  unfold maxCount
  rw [uniqueSorted_perm h]
  exact congrArg _ (List.map_congr_left fun v _ => cnt_perm h v)

theorem modeFn_perm {l1 l2 : List ℤ} (h : l1.Perm l2) : modeFn l1 = modeFn l2 := by
  unfold modeFn
  rw [uniqueSorted_perm h]
  congr 1
  exact List.filter_congr fun v _ => by rw [cnt_perm h v, maxCount_perm h]

theorem uniqueSorted_mem {l : List ℤ} {v : ℤ} : v ∈ uniqueSorted l ↔ v ∈ l := by
  rw [uniqueSorted, (List.perm_insertionSort _ _).mem_iff, List.mem_dedup]

theorem uniqueSorted_sorted (l : List ℤ) :
    (uniqueSorted l).Sorted (fun a b : ℤ => a ≤ b) :=
  List.sorted_insertionSort _ _

theorem uniqueSorted_nodup (l : List ℤ) : (uniqueSorted l).Nodup :=
  (List.perm_insertionSort _ _).symm.nodup (List.nodup_dedup l)

theorem foldr_max_le {a : ℕ} {xs : List ℕ} (h : a ∈ xs) : a ≤ xs.foldr max 0 := by
  induction xs with
  | nil => cases h
  | cons x xs ih =>
    rcases List.mem_cons.mp h with h1 | h1
    · subst h1; exact le_max_left _ _
    · exact le_trans (ih h1) (le_max_right _ _)

theorem foldr_max_attained (xs : List ℕ) : xs = [] ∨ xs.foldr max 0 ∈ xs := by
  induction xs with
  | nil => exact Or.inl rfl
  | cons x xs ih =>
    right
    rcases ih with h1 | h1
    · subst h1; simp
    · rcases max_choice x (xs.foldr max 0) with h2 | h2 <;> rw [List.foldr_cons, h2]
      · exact List.mem_cons_self _ _
      · exact List.mem_cons_of_mem _ h1

theorem cnt_le_maxCount {l : List ℤ} {v : ℤ} (h : v ∈ l) : cnt l v ≤ maxCount l :=
  foldr_max_le (List.mem_map_of_mem _ (uniqueSorted_mem.mpr h))

theorem maxCount_attained {l : List ℤ} (h : l ≠ []) :
    ∃ v ∈ uniqueSorted l, cnt l v = maxCount l := by
  have hne : uniqueSorted l ≠ [] := by
    obtain ⟨a, ha⟩ := List.exists_mem_of_ne_nil l h
    exact List.ne_nil_of_mem (uniqueSorted_mem.mpr ha)
  rcases foldr_max_attained ((uniqueSorted l).map (fun v => cnt l v)) with h1 | h1
  · exact absurd (List.map_eq_nil_iff.mp h1) hne
  · obtain ⟨v, hv, hcv⟩ := List.mem_map.mp h1
    exact ⟨v, hv, hcv⟩

theorem modeFn_isModeSpec {l : List ℤ} (h : l ≠ []) : isModeSpec l (modeFn l) := by
  obtain ⟨v, hv, hcv⟩ := maxCount_attained h
  have hvf : v ∈ (uniqueSorted l).filter (fun v => decide (cnt l v = maxCount l)) :=
    List.mem_filter.mpr ⟨hv, decide_eq_true hcv⟩
  rcases hf : (uniqueSorted l).filter (fun v => decide (cnt l v = maxCount l)) with
      _ | ⟨c, rest⟩
  · rw [hf] at hvf; cases hvf
  · have hmode : modeFn l = c := by rw [modeFn, hf]; rfl
    have hcf : c ∈ (uniqueSorted l).filter (fun v => decide (cnt l v = maxCount l)) := by
      rw [hf]; exact List.mem_cons_self _ _
    have hcu : c ∈ uniqueSorted l := (List.mem_filter.mp hcf).1
    have hcc : cnt l c = maxCount l := of_decide_eq_true (List.mem_filter.mp hcf).2
    have hsorted : ((uniqueSorted l).filter
        (fun v => decide (cnt l v = maxCount l))).Pairwise (fun a b : ℤ => a ≤ b) :=
      (uniqueSorted_sorted l).sublist (List.filter_sublist _)
    rw [hmode]
    refine ⟨uniqueSorted_mem.mp hcu, ?_, ?_⟩
    · intro w hw
      rw [hcc]
      exact cnt_le_maxCount hw
    · intro w hw hwc
      have hwf : w ∈ (uniqueSorted l).filter (fun v => decide (cnt l v = maxCount l)) :=
        List.mem_filter.mpr ⟨uniqueSorted_mem.mpr hw, decide_eq_true (hwc.trans hcc)⟩
      rw [hf] at hwf hsorted
      rcases List.mem_cons.mp hwf with h1 | h1
      · exact le_of_eq h1.symm
      · exact (List.pairwise_cons.mp hsorted).1 w h1

theorem modeFn_mem {l : List ℤ} (h : l ≠ []) : modeFn l ∈ l :=
  (modeFn_isModeSpec h).1

theorem sortedHalos_perm (haloid : List ℤ) (galproperty : List ℚ) (dir : SortDir)
    (sel : List ℕ) :
    (sortedHalos haloid galproperty dir sel).Perm
      (sel.map (fun i => haloid.getD i 0)) := by
  unfold sortedHalos
  have h1 := (List.perm_insertionSort (fun a b : ℚ × ℤ => a.1 ≤ b.1)
    (sel.map (fun i => (sortfactor dir * galproperty.getD i 0, haloid.getD i 0)))).map
      Prod.snd
  rwa [List.map_map] at h1

theorem repHalo_eq_modeFn (groupid haloid : List ℤ) (galproperty : List ℚ) (dir : SortDir)
    (g : ℤ) :
    repHalo groupid haloid galproperty dir g =
      modeFn ((groupSel groupid g).map (fun i => haloid.getD i 0)) :=
  modeFn_perm (sortedHalos_perm haloid galproperty dir (groupSel groupid g))

end GroupPurity

namespace GroupPurity

theorem stepGroup_length (groupid haloid : List ℤ) (galproperty : List ℚ) (dir : SortDir)
    (acc : List ℚ × List ℚ) (g : ℤ) :
    (stepGroup groupid haloid galproperty dir acc g).1.length = acc.1.length ∧
      (stepGroup groupid haloid galproperty dir acc g).2.length = acc.2.length :=
  ⟨length_setIndices _ _ _, length_setIndices _ _ _⟩

theorem foldl_stepGroup_getD (groupid haloid : List ℤ) (galproperty : List ℚ)
    (dir : SortDir) (i : ℕ) (d : ℚ) :
    ∀ (gs : List ℤ) (acc : List ℚ × List ℚ),
      acc.1.length = groupid.length → acc.2.length = groupid.length →
      ((gs.foldl (stepGroup groupid haloid galproperty dir) acc).1.getD i d =
          if groupid.getD i 0 ∈ gs ∧ i < groupid.length
          then purityOf groupid haloid galproperty dir (groupid.getD i 0)
          else acc.1.getD i d) ∧
        ((gs.foldl (stepGroup groupid haloid galproperty dir) acc).2.getD i d =
          if groupid.getD i 0 ∈ gs ∧ i < groupid.length
          then completenessOf groupid haloid galproperty dir (groupid.getD i 0)
          else acc.2.getD i d)
  | [], acc, h1, h2 => by simp
  | g :: gs, acc, h1, h2 => by
    have hstep1 : (stepGroup groupid haloid galproperty dir acc g).1.length =
        groupid.length := (stepGroup_length _ _ _ _ _ _).1.trans h1
    have hstep2 : (stepGroup groupid haloid galproperty dir acc g).2.length =
        groupid.length := (stepGroup_length _ _ _ _ _ _).2.trans h2
    obtain ⟨ih1, ih2⟩ := foldl_stepGroup_getD groupid haloid galproperty dir i d gs
      (stepGroup groupid haloid galproperty dir acc g) hstep1 hstep2
    rw [List.foldl_cons]
    constructor
    · rw [ih1]
      by_cases hgs : groupid.getD i 0 ∈ gs ∧ i < groupid.length
      · rw [if_pos hgs, if_pos ⟨List.mem_cons_of_mem _ hgs.1, hgs.2⟩]
      · rw [if_neg hgs]
        have hw : (stepGroup groupid haloid galproperty dir acc g).1.getD i d =
            if i ∈ groupSel groupid g ∧ i < acc.1.length
            then purityOf groupid haloid galproperty dir g
            else acc.1.getD i d := getD_setIndices _ _ _ _ _
        rw [hw]
        by_cases hg : groupid.getD i 0 = g ∧ i < groupid.length
        · rw [if_pos ⟨groupSel_mem.mpr ⟨hg.2, hg.1⟩, h1 ▸ hg.2⟩,
            if_pos ⟨by rw [hg.1]; exact List.mem_cons_self g gs, hg.2⟩, hg.1]
        · have hc1 : ¬ (i ∈ groupSel groupid g ∧ i < acc.1.length) := by
            rintro ⟨hm, -⟩
            obtain ⟨hilt, hig⟩ := groupSel_mem.mp hm
            exact hg ⟨hig, hilt⟩
          have hc2 : ¬ (groupid.getD i 0 ∈ g :: gs ∧ i < groupid.length) := by
            rintro ⟨hm, hlt⟩
            rcases List.mem_cons.mp hm with hm1 | hm1
            · exact hg ⟨hm1, hlt⟩
            · exact hgs ⟨hm1, hlt⟩
          rw [if_neg hc1, if_neg hc2]
    · rw [ih2]
      by_cases hgs : groupid.getD i 0 ∈ gs ∧ i < groupid.length
      · rw [if_pos hgs, if_pos ⟨List.mem_cons_of_mem _ hgs.1, hgs.2⟩]
      · rw [if_neg hgs]
        have hw : (stepGroup groupid haloid galproperty dir acc g).2.getD i d =
            if i ∈ groupSel groupid g ∧ i < acc.2.length
            then completenessOf groupid haloid galproperty dir g
            else acc.2.getD i d := getD_setIndices _ _ _ _ _
        rw [hw]
        by_cases hg : groupid.getD i 0 = g ∧ i < groupid.length
        · rw [if_pos ⟨groupSel_mem.mpr ⟨hg.2, hg.1⟩, h2 ▸ hg.2⟩,
            if_pos ⟨by rw [hg.1]; exact List.mem_cons_self g gs, hg.2⟩, hg.1]
        · have hc1 : ¬ (i ∈ groupSel groupid g ∧ i < acc.2.length) := by
            rintro ⟨hm, -⟩
            obtain ⟨hilt, hig⟩ := groupSel_mem.mp hm
            exact hg ⟨hig, hilt⟩
          have hc2 : ¬ (groupid.getD i 0 ∈ g :: gs ∧ i < groupid.length) := by
            rintro ⟨hm, hlt⟩
            rcases List.mem_cons.mp hm with hm1 | hm1
            · exact hg ⟨hm1, hlt⟩
            · exact hgs ⟨hm1, hlt⟩
          rw [if_neg hc1, if_neg hc2]

theorem metricsLoop_ok (groupid haloid : List ℤ) (galproperty : List ℚ) (dir : SortDir)
    (hlen1 : haloid.length = groupid.length) (hlen2 : galproperty.length = groupid.length) :
    ∀ (gs : List ℤ) (acc : List ℚ × List ℚ),
      metricsLoop groupid haloid galproperty (some dir) gs acc =
        Except.ok (gs.foldl (stepGroup groupid haloid galproperty dir) acc)
  | [], acc => rfl
  | g :: gs, acc => by
    have hbound : ∀ i ∈ groupSel groupid g, i < groupid.length :=
      fun i hi => (groupSel_mem.mp hi).1
    have hall1 : (groupSel groupid g).all (fun i => decide (i < galproperty.length)) = true :=
      List.all_eq_true.mpr fun i hi => decide_eq_true (hlen2 ▸ hbound i hi)
    have hall2 : (groupSel groupid g).all (fun i => decide (i < haloid.length)) = true :=
      List.all_eq_true.mpr fun i hi => decide_eq_true (hlen1 ▸ hbound i hi)
    rw [metricsLoop, hall1, hall2]
    simp only [if_true]
    rw [metricsLoop_ok groupid haloid galproperty dir hlen1 hlen2 gs
      (stepGroup groupid haloid galproperty dir acc g), List.foldl_cons]

end GroupPurity

namespace GroupPurity

theorem getD_mem_of_lt {l : List ℤ} {i : ℕ} (hi : i < l.length) : l.getD i 0 ∈ l := by
  rw [List.getD_eq_getElem?_getD, List.getElem?_eq_getElem hi]
  simp only [Option.getD_some]
  exact List.getElem_mem hi

theorem groupSel_ne_nil {groupid : List ℤ} {g : ℤ} (hg : g ∈ groupid) :
    groupSel groupid g ≠ [] := by
  obtain ⟨i, hi, hgi⟩ := List.mem_iff_getElem.mp hg
  refine List.ne_nil_of_mem (a := i) (groupSel_mem.mpr ⟨hi, ?_⟩)
  rw [List.getD_eq_getElem?_getD, List.getElem?_eq_getElem hi]
  simp only [Option.getD_some]
  exact hgi

theorem get_metrics_getD (groupid haloid : List ℤ) (galproperty : List ℚ) (dir : SortDir)
    (pc : List ℚ × List ℚ)
    (hlen1 : haloid.length = groupid.length) (hlen2 : galproperty.length = groupid.length)
    (hcls : classify galproperty = some dir)
    (hok : get_metrics groupid haloid galproperty = Except.ok pc)
    (i : ℕ) (hi : i < groupid.length) :
    pc.1.getD i 0 = purityOf groupid haloid galproperty dir (groupid.getD i 0) ∧
      pc.2.getD i 0 = completenessOf groupid haloid galproperty dir (groupid.getD i 0) := by
  rw [get_metrics, hcls,
    metricsLoop_ok groupid haloid galproperty dir hlen1 hlen2] at hok
  have hpc := Except.ok.inj hok
  obtain ⟨hp, hc⟩ := foldl_stepGroup_getD groupid haloid galproperty dir i 0
    (uniqueSorted groupid)
    (List.replicate groupid.length (-999), List.replicate groupid.length (-999))
    (by simp) (by simp)
  have hcond : groupid.getD i 0 ∈ uniqueSorted groupid ∧ i < groupid.length :=
    ⟨uniqueSorted_mem.mpr (getD_mem_of_lt hi), hi⟩
  rw [← hpc, hp, hc, if_pos hcond, if_pos hcond]
  exact ⟨rfl, rfl⟩

theorem N_s_eq_countBoth (groupid haloid : List ℤ) (g h : ℤ) :
    N_s groupid haloid g h = countBoth groupid haloid g h := by
  rw [N_s, countBoth, ← List.countP_eq_length_filter, List.countP_map, groupSel,
    List.countP_filter]
  refine List.countP_congr fun i _ => ?_
  simp only [Function.comp_apply, Bool.and_eq_true, decide_eq_true_eq]
  exact and_comm

theorem N_s_le_N_g (groupid haloid : List ℤ) (g h : ℤ) :
    N_s groupid haloid g h ≤ N_g groupid g := by
  rw [N_s, N_g, ← List.length_map (f := fun i => haloid.getD i 0)]
  exact List.countP_le_length _

theorem N_s_le_N_h (groupid haloid : List ℤ) (g h : ℤ)
    (hlen1 : haloid.length = groupid.length) :
    N_s groupid haloid g h ≤ N_h haloid h := by
  rw [N_s, List.countP_map, N_h, cnt,
    ← countP_range_getD haloid (fun x => decide (x = h)), hlen1]
  exact (List.filter_sublist _).countP_le _

theorem one_le_N_s (groupid haloid : List ℤ) (galproperty : List ℚ) (dir : SortDir)
    (g : ℤ) (hg : g ∈ groupid) :
    1 ≤ N_s groupid haloid g (repHalo groupid haloid galproperty dir g) := by
  have hne : (groupSel groupid g).map (fun i => haloid.getD i 0) ≠ [] := by
    simpa using groupSel_ne_nil hg
  have hmem := modeFn_mem hne
  rw [N_s, repHalo_eq_modeFn]
  exact Nat.one_le_iff_ne_zero.mpr (Nat.pos_iff_ne_zero.mp
    (List.countP_pos_iff.mpr ⟨_, hmem, decide_eq_true rfl⟩))

end GroupPurity

namespace GroupPurity

theorem sum_map_add (gs : List ℤ) (a b : ℤ → ℕ) :
    (gs.map (fun g => a g + b g)).sum = (gs.map a).sum + (gs.map b).sum := by
  induction gs with
  | nil => rfl
  | cons g gs ih => simp [ih]; omega

theorem sum_indicator_not_mem {v : ℤ} {gs : List ℤ} (h : v ∉ gs) :
    (gs.map (fun g => if v = g then 1 else 0)).sum = 0 := by
  induction gs with
  | nil => rfl
  | cons g gs ih =>
    have hvg : v ≠ g := fun he => h (he ▸ List.mem_cons_self g gs)
    simp only [List.map_cons, List.sum_cons, if_neg hvg]
    rw [ih (fun hm => h (List.mem_cons_of_mem g hm))]

theorem sum_indicator_le_one (v : ℤ) (gs : List ℤ) (h : gs.Nodup) :
    (gs.map (fun g => if v = g then 1 else 0)).sum ≤ 1 := by
  induction gs with
  | nil => exact Nat.zero_le 1
  | cons g gs ih =>
    obtain ⟨hng, hnd⟩ := List.nodup_cons.mp h
    simp only [List.map_cons, List.sum_cons]
    by_cases hvg : v = g
    · rw [if_pos hvg, sum_indicator_not_mem (hvg ▸ hng)]
    · rw [if_neg hvg, Nat.zero_add]
      exact ih hnd

theorem sum_countP_grouped (f : ℕ → ℤ) (m : ℕ → Bool) (gs : List ℤ) (hnd : gs.Nodup) :
    ∀ xs : List ℕ,
      (gs.map (fun g => xs.countP (fun i => decide (f i = g) && m i))).sum ≤ xs.countP m
  | [] => by
    simp only [List.countP_nil]
    have hz : (gs.map (fun _ => (0 : ℕ))).sum = 0 := by simp
    exact le_of_eq hz
  | x :: xs => by
    have hsplit : (gs.map (fun g => (x :: xs).countP (fun i => decide (f i = g) && m i))).sum
        = (gs.map (fun g => xs.countP (fun i => decide (f i = g) && m i))).sum
          + (gs.map (fun g => if decide (f x = g) && m x then 1 else 0)).sum := by
      rw [← sum_map_add]
      exact congrArg _ (List.map_congr_left fun g _ =>
        List.countP_cons (p := fun i => decide (f i = g) && m i) x xs)
    rw [hsplit, List.countP_cons]
    have hind : (gs.map (fun g => if decide (f x = g) && m x then 1 else 0)).sum
        ≤ if m x then 1 else 0 := by
      by_cases hmx : m x = true
      · have he : (gs.map (fun g => if decide (f x = g) && m x then 1 else 0))
            = gs.map (fun g => if f x = g then 1 else 0) := by
          refine List.map_congr_left fun g _ => ?_
          rw [hmx, Bool.and_true]
          by_cases hfg : f x = g
          · rw [if_pos hfg, if_pos (decide_eq_true hfg)]
          · rw [if_neg hfg, if_neg (by simpa using hfg)]
        rw [he, hmx, if_pos rfl]
        exact sum_indicator_le_one _ _ hnd
      · have hmx0 : m x = false := Bool.eq_false_iff.mpr hmx
        have he : (gs.map (fun g => if decide (f x = g) && m x then 1 else 0))
            = gs.map (fun _ => (0 : ℕ)) := by
          refine List.map_congr_left fun g _ => ?_
          rw [hmx0, Bool.and_false]
          rfl
        rw [he, hmx0]
        have hz : (gs.map (fun _ : ℤ => (0 : ℕ))).sum = 0 := by simp
        simp [hz]
    exact Nat.add_le_add (sum_countP_grouped f m gs hnd xs) hind

theorem foldl_min_spec (xs : List ℚ) (x : ℚ) :
    (xs.foldl min x ∈ x :: xs) ∧ xs.foldl min x ≤ x ∧ ∀ y ∈ xs, xs.foldl min x ≤ y := by
  induction xs generalizing x with
  | nil => exact ⟨List.mem_cons_self _ _, le_refl x, by intro y hy; cases hy⟩
  | cons a xs ih =>
    obtain ⟨hmem, hlex, hall⟩ := ih (min x a)
    rw [List.foldl_cons]
    refine ⟨?_, ?_, ?_⟩
    · rcases List.mem_cons.mp hmem with h1 | h1
      · rcases min_choice x a with h2 | h2
        · rw [h1, h2]
          exact List.mem_cons_self _ _
        · rw [h1, h2]
          exact List.mem_cons_of_mem _ (List.mem_cons_self _ _)
      · exact List.mem_cons_of_mem _ (List.mem_cons_of_mem _ h1)
    · exact le_trans hlex (min_le_left _ _)
    · intro y hy
      rcases List.mem_cons.mp hy with h1 | h1
      · rw [h1]
        exact le_trans hlex (min_le_right _ _)
      · exact hall y h1

theorem foldl_max_spec (xs : List ℚ) (x : ℚ) :
    (xs.foldl max x ∈ x :: xs) ∧ x ≤ xs.foldl max x ∧ ∀ y ∈ xs, y ≤ xs.foldl max x := by
  induction xs generalizing x with
  | nil => exact ⟨List.mem_cons_self _ _, le_refl x, by intro y hy; cases hy⟩
  | cons a xs ih =>
    obtain ⟨hmem, hlex, hall⟩ := ih (max x a)
    rw [List.foldl_cons]
    refine ⟨?_, ?_, ?_⟩
    · rcases List.mem_cons.mp hmem with h1 | h1
      · rcases max_choice x a with h2 | h2
        · rw [h1, h2]
          exact List.mem_cons_self _ _
        · rw [h1, h2]
          exact List.mem_cons_of_mem _ (List.mem_cons_self _ _)
      · exact List.mem_cons_of_mem _ (List.mem_cons_of_mem _ h1)
    · exact le_trans (le_max_left _ _) hlex
    · intro y hy
      rcases List.mem_cons.mp hy with h1 | h1
      · rw [h1]
        exact le_trans (le_max_right _ _) hlex
      · exact hall y h1

theorem classify_magnitude_iff (p : List ℚ) :
    classify p = some SortDir.magnitude ↔ ∀ x ∈ p, -30 < x ∧ x < -12 := by
  unfold classify
  split_ifs with h1 h2
  · simp only [true_iff]
    rw [Bool.and_eq_true, List.all_eq_true, List.all_eq_true] at h1
    intro x hx
    exact ⟨of_decide_eq_true (h1.1 x hx), of_decide_eq_true (h1.2 x hx)⟩
  all_goals
    simp only [reduceCtorEq, Option.some.injEq, false_iff]
  all_goals
    intro hall
    apply h1
    rw [Bool.and_eq_true, List.all_eq_true, List.all_eq_true]
    exact ⟨fun x hx => decide_eq_true (hall x hx).1, fun x hx => decide_eq_true (hall x hx).2⟩

theorem classify_mass_iff (p : List ℚ) :
    classify p = some SortDir.mass ↔
      (¬ ∀ x ∈ p, -30 < x ∧ x < -12) ∧ ∀ x ∈ p, 0 < x := by
  unfold classify
  split_ifs with h1 h2
  · simp only [Option.some.injEq, reduceCtorEq, false_iff]
    rw [Bool.and_eq_true, List.all_eq_true, List.all_eq_true] at h1
    rintro ⟨hn, -⟩
    exact hn fun x hx => ⟨of_decide_eq_true (h1.1 x hx), of_decide_eq_true (h1.2 x hx)⟩
  · simp only [true_iff]
    constructor
    · intro hall
      apply h1
      rw [Bool.and_eq_true, List.all_eq_true, List.all_eq_true]
      exact ⟨fun x hx => decide_eq_true (hall x hx).1, fun x hx => decide_eq_true (hall x hx).2⟩
    · intro x hx
      exact of_decide_eq_true (List.all_eq_true.mp h2 x hx)
  · simp only [reduceCtorEq, false_iff]
    rintro ⟨-, hall⟩
    exact h2 (List.all_eq_true.mpr fun x hx => decide_eq_true (hall x hx))

theorem classify_none_iff (p : List ℚ) :
    classify p = none ↔
      (¬ ∀ x ∈ p, -30 < x ∧ x < -12) ∧ ¬ ∀ x ∈ p, 0 < x := by
  unfold classify
  split_ifs with h1 h2
  · simp only [reduceCtorEq, false_iff]
    rw [Bool.and_eq_true, List.all_eq_true, List.all_eq_true] at h1
    rintro ⟨hn, -⟩
    exact hn fun x hx => ⟨of_decide_eq_true (h1.1 x hx), of_decide_eq_true (h1.2 x hx)⟩
  · simp only [reduceCtorEq, false_iff]
    rintro ⟨-, hn⟩
    exact hn fun x hx => of_decide_eq_true (List.all_eq_true.mp h2 x hx)
  · simp only [true_iff]
    constructor
    · intro hall
      apply h1
      rw [Bool.and_eq_true, List.all_eq_true, List.all_eq_true]
      exact ⟨fun x hx => decide_eq_true (hall x hx).1, fun x hx => decide_eq_true (hall x hx).2⟩
    · intro hall
      exact h2 (List.all_eq_true.mpr fun x hx => decide_eq_true (hall x hx))

end GroupPurity

namespace GroupPurity

theorem eval_scenario :
    get_metrics [1, 1, 2, 2] [10, 10, 20, 10] [-20, -19, -18, -17] =
      Except.ok ([1, 1, 1/2, 1/2], [2/3, 2/3, 1/3, 1/3]) := by
  have hcls : classify [-20, -19, -18, -17] = some SortDir.magnitude := by decide
  rw [get_metrics, hcls, metricsLoop_ok _ _ _ _ (by rfl) (by rfl),
    show uniqueSorted [1, 1, 2, 2] = [1, 2] by decide]
  rw [List.foldl_cons, List.foldl_cons, List.foldl_nil]
  have h1 : repHalo [1, 1, 2, 2] [10, 10, 20, 10] [-20, -19, -18, -17] SortDir.magnitude 1
      = 10 := by
    rw [repHalo_eq_modeFn]
    decide
  have h2 : repHalo [1, 1, 2, 2] [10, 10, 20, 10] [-20, -19, -18, -17] SortDir.magnitude 2
      = 10 := by
    rw [repHalo_eq_modeFn]
    decide
  have hNs1 : N_s [1, 1, 2, 2] [10, 10, 20, 10] 1 10 = 2 := by decide
  have hNs2 : N_s [1, 1, 2, 2] [10, 10, 20, 10] 2 10 = 1 := by decide
  have hNg1 : N_g [1, 1, 2, 2] 1 = 2 := by decide
  have hNg2 : N_g [1, 1, 2, 2] 2 = 2 := by decide
  have hNh : N_h [10, 10, 20, 10] 10 = 3 := by decide
  have hsel1 : groupSel [1, 1, 2, 2] 1 = [0, 1] := by decide
  have hsel2 : groupSel [1, 1, 2, 2] 2 = [2, 3] := by decide
  rw [show (List.replicate ([1, 1, 2, 2] : List ℤ).length (-999 : ℚ))
      = [-999, -999, -999, -999] from rfl]
  simp only [stepGroup, purityOf, completenessOf, h1, h2, hNs1, hNs2, hNg1, hNg2, hNh,
    hsel1, hsel2, setIndices, List.foldl_cons, List.foldl_nil]
  norm_num [List.set]

end GroupPurity

namespace GroupPurity

theorem countBoth_eq_countP (groupid haloid : List ℤ) (g h : ℤ) :
    countBoth groupid haloid g h = (List.range groupid.length).countP
      (fun i => decide (groupid.getD i 0 = g) && decide (haloid.getD i 0 = h)) :=
  (List.countP_eq_length_filter _ _).symm

/-- Claim C1: on `groupid = [1,1,2,2]`, `haloid = [10,10,20,10]`,
`property = [-20,-19,-18,-17]` the operation returns
`purity = [1, 1, 1/2, 1/2]` and `completeness = [2/3, 2/3, 1/3, 1/3]`:
group 1 maps to halo 10 with two of its two members correct out of three halo
members, and group 2's mode of two tied halo ids breaks the tie to halo 10. -/
theorem claim_C1_concrete_scenario :
    get_metrics [1, 1, 2, 2] [10, 10, 20, 10] [-20, -19, -18, -17] =
      Except.ok ([1, 1, 1/2, 1/2], [2/3, 2/3, 1/3, 1/3]) :=
  eval_scenario

/-- Claim C2: for every group actually present, the representative halo is the
statistical mode (computed in original member order, so the property-based
reordering does not change it), it satisfies the specification's mode
characterisation with ties broken by the numerically smallest halo id, and the
mode is invariant under any permutation of the group's members. -/
theorem claim_C2_representative_is_mode (groupid haloid : List ℤ) (galproperty : List ℚ)
    (dir : SortDir) (g : ℤ) (hg : g ∈ groupid) :
    repHalo groupid haloid galproperty dir g =
        modeFn ((groupSel groupid g).map (fun i => haloid.getD i 0)) ∧
      isModeSpec ((groupSel groupid g).map (fun i => haloid.getD i 0))
        (repHalo groupid haloid galproperty dir g) ∧
      ∀ l2 : List ℤ, l2.Perm ((groupSel groupid g).map (fun i => haloid.getD i 0)) →
        modeFn l2 = modeFn ((groupSel groupid g).map (fun i => haloid.getD i 0)) := by
  have hne : (groupSel groupid g).map (fun i => haloid.getD i 0) ≠ [] := by
    simpa using groupSel_ne_nil hg
  refine ⟨repHalo_eq_modeFn groupid haloid galproperty dir g, ?_, ?_⟩
  · rw [repHalo_eq_modeFn]
    exact modeFn_isModeSpec hne
  · exact fun l2 hperm => modeFn_perm hperm

/-- Witness for claim C2 at the concrete scenario, group 2. -/
theorem claim_C2_witness :
    (2 : ℤ) ∈ ([1, 1, 2, 2] : List ℤ) ∧
      (repHalo [1, 1, 2, 2] [10, 10, 20, 10] [-20, -19, -18, -17] SortDir.magnitude 2 =
          modeFn ((groupSel [1, 1, 2, 2] 2).map (fun i => [10, 10, 20, 10].getD i 0)) ∧
        isModeSpec ((groupSel [1, 1, 2, 2] 2).map (fun i => [10, 10, 20, 10].getD i 0))
          (repHalo [1, 1, 2, 2] [10, 10, 20, 10] [-20, -19, -18, -17] SortDir.magnitude 2) ∧
        ∀ l2 : List ℤ,
          l2.Perm ((groupSel [1, 1, 2, 2] 2).map (fun i => [10, 10, 20, 10].getD i 0)) →
          modeFn l2 =
            modeFn ((groupSel [1, 1, 2, 2] 2).map (fun i => [10, 10, 20, 10].getD i 0))) :=
  ⟨by decide, claim_C2_representative_is_mode [1, 1, 2, 2] [10, 10, 20, 10]
    [-20, -19, -18, -17] SortDir.magnitude 2 (by decide)⟩

/-- Claim C3: for well-formed input, at every member index of a group `g` the
returned purity is `N_s / N_g` and the returned completeness is `N_s / N_h`,
where `N_g` counts the indices in group `g`, `N_h` counts catalog-wide the
indices in the representative halo, and `N_s` counts the indices in both. -/
theorem claim_C3_ratio_values (groupid haloid : List ℤ) (galproperty : List ℚ)
    (dir : SortDir) (pur comp : List ℚ) (g : ℤ) (i : ℕ)
    (hlen1 : haloid.length = groupid.length) (hlen2 : galproperty.length = groupid.length)
    (hcls : classify galproperty = some dir)
    (hok : get_metrics groupid haloid galproperty = Except.ok (pur, comp))
    (hi : i < groupid.length) (hgi : groupid.getD i 0 = g) :
    pur.getD i 0 =
        (countBoth groupid haloid g (repHalo groupid haloid galproperty dir g) : ℚ) /
          (N_g groupid g : ℚ) ∧
      comp.getD i 0 =
        (countBoth groupid haloid g (repHalo groupid haloid galproperty dir g) : ℚ) /
          (N_h haloid (repHalo groupid haloid galproperty dir g) : ℚ) := by
  obtain ⟨hp, hc⟩ := get_metrics_getD groupid haloid galproperty dir (pur, comp)
    hlen1 hlen2 hcls hok i hi
  have hp2 : pur.getD i 0 = purityOf groupid haloid galproperty dir (groupid.getD i 0) := hp
  have hc2 : comp.getD i 0 =
      completenessOf groupid haloid galproperty dir (groupid.getD i 0) := hc
  rw [hgi] at hp2 hc2
  rw [hp2, hc2, purityOf, completenessOf, N_s_eq_countBoth]
  exact ⟨rfl, rfl⟩

/-- Witness for claim C3 at the concrete scenario, member index 2 of group 2. -/
theorem claim_C3_witness :
    (2 : ℕ) < ([1, 1, 2, 2] : List ℤ).length ∧
      (([1, 1, 1/2, 1/2] : List ℚ).getD 2 0 =
          (countBoth [1, 1, 2, 2] [10, 10, 20, 10] 2
              (repHalo [1, 1, 2, 2] [10, 10, 20, 10] [-20, -19, -18, -17]
                SortDir.magnitude 2) : ℚ) / (N_g [1, 1, 2, 2] 2 : ℚ) ∧
        ([2/3, 2/3, 1/3, 1/3] : List ℚ).getD 2 0 =
          (countBoth [1, 1, 2, 2] [10, 10, 20, 10] 2
              (repHalo [1, 1, 2, 2] [10, 10, 20, 10] [-20, -19, -18, -17]
                SortDir.magnitude 2) : ℚ) /
            (N_h [10, 10, 20, 10]
              (repHalo [1, 1, 2, 2] [10, 10, 20, 10] [-20, -19, -18, -17]
                SortDir.magnitude 2) : ℚ)) :=
  ⟨by decide, claim_C3_ratio_values [1, 1, 2, 2] [10, 10, 20, 10] [-20, -19, -18, -17]
    SortDir.magnitude [1, 1, 1/2, 1/2] [2/3, 2/3, 1/3, 1/3] 2 2 rfl rfl (by decide)
    eval_scenario (by decide) (by decide)⟩

end GroupPurity

namespace GroupPurity

/-- Claim C4: for well-formed input (equal lengths, classifiable property),
every returned purity and completeness value lies in the half-open interval
from 0 exclusive to 1 inclusive, and the divisor counts satisfy
`1 ≤ N_g` and `1 ≤ N_h`, so no division by zero occurs. -/
theorem claim_C4_bounds (groupid haloid : List ℤ) (galproperty : List ℚ)
    (dir : SortDir) (pur comp : List ℚ) (i : ℕ)
    (hlen1 : haloid.length = groupid.length) (hlen2 : galproperty.length = groupid.length)
    (hcls : classify galproperty = some dir)
    (hok : get_metrics groupid haloid galproperty = Except.ok (pur, comp))
    (hi : i < groupid.length) :
    (0 < pur.getD i 0 ∧ pur.getD i 0 ≤ 1) ∧
      (0 < comp.getD i 0 ∧ comp.getD i 0 ≤ 1) ∧
      1 ≤ N_g groupid (groupid.getD i 0) ∧
      1 ≤ N_h haloid (repHalo groupid haloid galproperty dir (groupid.getD i 0)) := by
  obtain ⟨hp, hc⟩ := get_metrics_getD groupid haloid galproperty dir (pur, comp)
    hlen1 hlen2 hcls hok i hi
  have hp2 : pur.getD i 0 = purityOf groupid haloid galproperty dir (groupid.getD i 0) := hp
  have hc2 : comp.getD i 0 =
      completenessOf groupid haloid galproperty dir (groupid.getD i 0) := hc
  have hgmem : groupid.getD i 0 ∈ groupid := getD_mem_of_lt hi
  have hNs1 : 1 ≤ N_s groupid haloid (groupid.getD i 0)
      (repHalo groupid haloid galproperty dir (groupid.getD i 0)) :=
    one_le_N_s groupid haloid galproperty dir (groupid.getD i 0) hgmem
  have hNsg := N_s_le_N_g groupid haloid (groupid.getD i 0)
    (repHalo groupid haloid galproperty dir (groupid.getD i 0))
  have hNsh := N_s_le_N_h groupid haloid (groupid.getD i 0)
    (repHalo groupid haloid galproperty dir (groupid.getD i 0)) hlen1
  have hNg1 : 1 ≤ N_g groupid (groupid.getD i 0) := le_trans hNs1 hNsg
  have hNh1 : 1 ≤ N_h haloid
      (repHalo groupid haloid galproperty dir (groupid.getD i 0)) := le_trans hNs1 hNsh
  have hNspos : (0 : ℚ) < (N_s groupid haloid (groupid.getD i 0)
      (repHalo groupid haloid galproperty dir (groupid.getD i 0)) : ℚ) :=
    Nat.cast_pos.mpr (Nat.lt_of_lt_of_le Nat.zero_lt_one hNs1)
  have hNgpos : (0 : ℚ) < (N_g groupid (groupid.getD i 0) : ℚ) :=
    Nat.cast_pos.mpr (Nat.lt_of_lt_of_le Nat.zero_lt_one hNg1)
  have hNhpos : (0 : ℚ) < (N_h haloid
      (repHalo groupid haloid galproperty dir (groupid.getD i 0)) : ℚ) :=
    Nat.cast_pos.mpr (Nat.lt_of_lt_of_le Nat.zero_lt_one hNh1)
  refine ⟨⟨?_, ?_⟩, ⟨?_, ?_⟩, hNg1, hNh1⟩
  · rw [hp2, purityOf]
    exact div_pos hNspos hNgpos
  · rw [hp2, purityOf]
    exact (div_le_one hNgpos).mpr (Nat.cast_le.mpr hNsg)
  · rw [hc2, completenessOf]
    exact div_pos hNspos hNhpos
  · rw [hc2, completenessOf]
    exact (div_le_one hNhpos).mpr (Nat.cast_le.mpr hNsh)

/-- Witness for claim C4 at the concrete scenario, index 0. -/
theorem claim_C4_witness :
    (0 : ℕ) < ([1, 1, 2, 2] : List ℤ).length ∧
      ((0 < ([1, 1, 1/2, 1/2] : List ℚ).getD 0 0 ∧
          ([1, 1, 1/2, 1/2] : List ℚ).getD 0 0 ≤ 1) ∧
        (0 < ([2/3, 2/3, 1/3, 1/3] : List ℚ).getD 0 0 ∧
          ([2/3, 2/3, 1/3, 1/3] : List ℚ).getD 0 0 ≤ 1) ∧
        1 ≤ N_g [1, 1, 2, 2] (([1, 1, 2, 2] : List ℤ).getD 0 0) ∧
        1 ≤ N_h [10, 10, 20, 10]
          (repHalo [1, 1, 2, 2] [10, 10, 20, 10] [-20, -19, -18, -17] SortDir.magnitude
            (([1, 1, 2, 2] : List ℤ).getD 0 0))) :=
  ⟨by decide, claim_C4_bounds [1, 1, 2, 2] [10, 10, 20, 10] [-20, -19, -18, -17]
    SortDir.magnitude [1, 1, 1/2, 1/2] [2/3, 2/3, 1/3, 1/3] 0 rfl rfl (by decide)
    eval_scenario (by decide)⟩

/-- Claim C5: for well-formed input, members of the same group receive
identical purity values and identical completeness values. -/
theorem claim_C5_broadcast (groupid haloid : List ℤ) (galproperty : List ℚ)
    (dir : SortDir) (pur comp : List ℚ) (i j : ℕ)
    (hlen1 : haloid.length = groupid.length) (hlen2 : galproperty.length = groupid.length)
    (hcls : classify galproperty = some dir)
    (hok : get_metrics groupid haloid galproperty = Except.ok (pur, comp))
    (hi : i < groupid.length) (hj : j < groupid.length)
    (hij : groupid.getD i 0 = groupid.getD j 0) :
    pur.getD i 0 = pur.getD j 0 ∧ comp.getD i 0 = comp.getD j 0 := by
  obtain ⟨hpi, hci⟩ := get_metrics_getD groupid haloid galproperty dir (pur, comp)
    hlen1 hlen2 hcls hok i hi
  obtain ⟨hpj, hcj⟩ := get_metrics_getD groupid haloid galproperty dir (pur, comp)
    hlen1 hlen2 hcls hok j hj
  have hpi2 : pur.getD i 0 = purityOf groupid haloid galproperty dir (groupid.getD i 0) := hpi
  have hci2 : comp.getD i 0 =
      completenessOf groupid haloid galproperty dir (groupid.getD i 0) := hci
  have hpj2 : pur.getD j 0 = purityOf groupid haloid galproperty dir (groupid.getD j 0) := hpj
  have hcj2 : comp.getD j 0 =
      completenessOf groupid haloid galproperty dir (groupid.getD j 0) := hcj
  rw [hpi2, hci2, hpj2, hcj2, hij]
  exact ⟨rfl, rfl⟩

/-- Witness for claim C5 at the concrete scenario, indices 0 and 1. -/
theorem claim_C5_witness :
    ([1, 1, 2, 2] : List ℤ).getD 0 0 = ([1, 1, 2, 2] : List ℤ).getD 1 0 ∧
      (([1, 1, 1/2, 1/2] : List ℚ).getD 0 0 = ([1, 1, 1/2, 1/2] : List ℚ).getD 1 0 ∧
        ([2/3, 2/3, 1/3, 1/3] : List ℚ).getD 0 0 =
          ([2/3, 2/3, 1/3, 1/3] : List ℚ).getD 1 0) :=
  ⟨by decide, claim_C5_broadcast [1, 1, 2, 2] [10, 10, 20, 10] [-20, -19, -18, -17]
    SortDir.magnitude [1, 1, 1/2, 1/2] [2/3, 2/3, 1/3, 1/3] 0 1 rfl rfl (by decide)
    eval_scenario (by decide) (by decide) (by decide)⟩

/-- Claim C6: the classifier decides the ranking direction from the whole
property array: magnitude exactly when every value is strictly between -30
and -12 (then the most significant member is the one of minimum value), mass
exactly when that fails and every value is strictly positive (then the most
significant member is the one of maximum value), and no classification
otherwise. -/
theorem claim_C6_classifier (p : List ℚ) :
    (classify p = some SortDir.magnitude ↔ ∀ x ∈ p, -30 < x ∧ x < -12) ∧
      (classify p = some SortDir.mass ↔
        (¬ ∀ x ∈ p, -30 < x ∧ x < -12) ∧ ∀ x ∈ p, 0 < x) ∧
      (classify p = none ↔
        (¬ ∀ x ∈ p, -30 < x ∧ x < -12) ∧ ¬ ∀ x ∈ p, 0 < x) ∧
      ∀ l : List ℚ, l ≠ [] →
        (central_selection SortDir.magnitude l ∈ l ∧
            ∀ x ∈ l, central_selection SortDir.magnitude l ≤ x) ∧
          (central_selection SortDir.mass l ∈ l ∧
            ∀ x ∈ l, x ≤ central_selection SortDir.mass l) := by
  refine ⟨classify_magnitude_iff p, classify_mass_iff p, classify_none_iff p, ?_⟩
  intro l hl
  match l with
  | [] => exact absurd rfl hl
  | x :: xs =>
    obtain ⟨hminmem, hminle, hminall⟩ := foldl_min_spec xs x
    obtain ⟨hmaxmem, hmaxle, hmaxall⟩ := foldl_max_spec xs x
    refine ⟨⟨hminmem, ?_⟩, ⟨hmaxmem, ?_⟩⟩
    · intro y hy
      rcases List.mem_cons.mp hy with h1 | h1
      · rw [h1]
        exact hminle
      · exact hminall y h1
    · intro y hy
      rcases List.mem_cons.mp hy with h1 | h1
      · rw [h1]
        exact hmaxle
      · exact hmaxall y h1

/-- Witness for claim C6 on a concrete magnitude array and a concrete
nonempty list. -/
theorem claim_C6_witness :
    classify [(-20 : ℚ), -19] = some SortDir.magnitude ∧
      ([(3 : ℚ), 1, 2] ≠ [] ∧
        central_selection SortDir.magnitude [(3 : ℚ), 1, 2] ∈ [(3 : ℚ), 1, 2] ∧
        central_selection SortDir.mass [(3 : ℚ), 1, 2] ∈ [(3 : ℚ), 1, 2]) :=
  ⟨(claim_C6_classifier [(-20 : ℚ), -19]).1.mpr (by decide),
    by
      refine ⟨by decide, ?_, ?_⟩
      · exact (((claim_C6_classifier []).2.2.2 [(3 : ℚ), 1, 2] (by decide)).1).1
      · exact (((claim_C6_classifier []).2.2.2 [(3 : ℚ), 1, 2] (by decide)).2).1⟩

end GroupPurity

namespace GroupPurity

/-- Claim C7 evidence: on an unclassifiable property array the code does not
raise any classification error before group processing; it fails with an
unbound-local failure inside the first loop iteration, and with no groups it
even returns successfully despite the unclassifiable property. -/
theorem claim_C7_no_classification_error :
    get_metrics [1] [10] [-5] = Except.error PyError.unboundLocalError ∧
      classify [-5] = none ∧
      get_metrics [] [] [-5] = Except.ok ([], []) :=
  ⟨rfl, rfl, rfl⟩

/-- Claim C8 evidence: with `groupid` of length 3 and `haloid` of length 2 the
code performs no explicit shape check; group 1 is processed and the failure
only surfaces as an out-of-range index access when group 2 touches
`haloid[2]`. -/
theorem claim_C8_no_shape_check :
    get_metrics [1, 1, 2] [10, 10] [-20, -19, -18] = Except.error PyError.indexError :=
  rfl

/-- Claim C9: the empty input succeeds with two zero-length outputs, and the
empty property array is not treated as a classification failure (the
vacuously true magnitude test classifies it). -/
theorem claim_C9_empty_input :
    get_metrics [] [] [] = Except.ok ([], []) ∧ classify [] = some SortDir.magnitude :=
  ⟨rfl, rfl⟩

/-- Claim C10: for any fixed halo `h`, the `N_s` counts of the groups whose
representative halo is `h` sum to at most `N_h`, the catalog-wide number of
members of halo `h`. -/
theorem claim_C10_recovery_bound (groupid haloid : List ℤ) (galproperty : List ℚ)
    (dir : SortDir) (h : ℤ) (hlen1 : haloid.length = groupid.length) :
    (((uniqueSorted groupid).filter
        (fun g => decide (repHalo groupid haloid galproperty dir g = h))).map
      (fun g => countBoth groupid haloid g h)).sum ≤ N_h haloid h := by
  have hrw : (((uniqueSorted groupid).filter
        (fun g => decide (repHalo groupid haloid galproperty dir g = h))).map
      (fun g => countBoth groupid haloid g h))
      = ((uniqueSorted groupid).filter
        (fun g => decide (repHalo groupid haloid galproperty dir g = h))).map
      (fun g => (List.range groupid.length).countP
        (fun i => decide (groupid.getD i 0 = g) && decide (haloid.getD i 0 = h))) :=
    List.map_congr_left fun g _ => countBoth_eq_countP groupid haloid g h
  rw [hrw, N_h, cnt, ← countP_range_getD haloid (fun x => decide (x = h)), hlen1]
  exact sum_countP_grouped (fun i => groupid.getD i 0)
    (fun i => decide (haloid.getD i 0 = h)) _
    (List.Nodup.filter _ (uniqueSorted_nodup groupid)) (List.range groupid.length)

/-- Witness for claim C10 at the concrete scenario, halo 10. -/
theorem claim_C10_witness :
    ([10, 10, 20, 10] : List ℤ).length = ([1, 1, 2, 2] : List ℤ).length ∧
      (((uniqueSorted [1, 1, 2, 2]).filter
          (fun g => decide (repHalo [1, 1, 2, 2] [10, 10, 20, 10] [-20, -19, -18, -17]
            SortDir.magnitude g = 10))).map
        (fun g => countBoth [1, 1, 2, 2] [10, 10, 20, 10] g 10)).sum ≤
        N_h [10, 10, 20, 10] 10 :=
  ⟨rfl, claim_C10_recovery_bound [1, 1, 2, 2] [10, 10, 20, 10] [-20, -19, -18, -17]
    SortDir.magnitude 10 rfl⟩

end GroupPurity
